import Mathlib

/-!
Verification of the enum-with-string-conversions generator in
`src/include/define_enum.hpp` (macro `DEFINE_ENUM_WITH_STRING_CONVERSIONS`).

The generator consumes an Enumerator List — an ordered list of identifiers,
modelled as `List String` — and emits:

* an `enum class` whose declared enumerators are the list followed by the
  terminal marker `TOTAL`; a variant is identified by its ordinal, a `Nat`;
* `EnumName_names`, the compile-time table of stringized spellings;
* `to_string`, indexing the table at the variant's ordinal (an out-of-range
  index is undefined behaviour in C++, rendered here as `none`);
* `EnumName_from_string`, a linear scan over the table; the `assert(false)`
  reached when no entry matches is rendered as `none`;
* `operator<<`, which writes `to_string value` to an append-only text sink.
-/

namespace DefineEnum

/-- `EU_ENUM_STRING(name)` expands to `#name`: stringizing a bare identifier
yields exactly its source spelling. -/
def stringize (name : String) : String := name

/-- The declared enumerator list of the generated `enum class EnumName`:
the caller's Enumerator List expanded by `EU_ENUM_DECLARE`, followed by the
terminal marker `TOTAL`. -/
def enumDecls (enumDef : List String) : List String := enumDef ++ ["TOTAL"]

/-- C++ ordinal assignment for an `enum class` without initializers: the
first enumerator gets value `k`, each later one the previous value plus one
(`k = 0` at the start of the declaration). -/
def assignOrdinals : List String → Nat → List (String × Nat)
  | [], _ => []
  | n :: rest, k => (n, k) :: assignOrdinals rest (k + 1)

/-- The enumerators of `enum class EnumName` paired with their ordinals. -/
def enumerators (enumDef : List String) : List (String × Nat) :=
  assignOrdinals (enumDecls enumDef) 0

/-- The ordinal of `EnumName::TOTAL`, the last declared enumerator. -/
def TOTAL_ordinal (enumDef : List String) : Nat :=
  ((enumerators enumDef).getLastD ("TOTAL", 0)).2

/-- `EnumName_names`: the compile-time array `{ ENUM_DEF(EU_ENUM_STRING) }`,
one stringized entry per enumerator of the caller's list, in declared order. -/
def EnumName_names (enumDef : List String) : List String :=
  enumDef.map stringize

/-- `to_string(value)`: `EnumName_names[static_cast<size_t>(value)]`.
Indexing `std::array` out of range is undefined behaviour; the embedding
returns `none` there. -/
def to_string (enumDef : List String) (value : Nat) : Option String :=
  (EnumName_names enumDef)[value]?

/-- The loop of `EnumName_from_string`: scan the remaining entries of the
name table, `i` being the index of the first remaining entry; return the
index of the first entry equal to `sv`. Falling out of the loop reaches
`assert(false && "Invalid Enum name")`, rendered as `none`. -/
def from_stringLoop (sv : String) : List String → Nat → Option Nat
  | [], _ => none
  | n :: rest, i => if n = sv then some i else from_stringLoop sv rest (i + 1)

/-- `EnumName_from_string(sv)`: linear scan of `EnumName_names` from index 0
upward; the returned variant is `static_cast<EnumName>(i)`, identified here
by its ordinal `i`. -/
def EnumName_from_string (enumDef : List String) (sv : String) : Option Nat :=
  from_stringLoop sv (EnumName_names enumDef) 0

/-- `operator<<(os, value)`: writes `to_string(value)` to the stream and
returns the stream. The sink is modelled as the text accumulated so far;
undefined behaviour from an invalid variant propagates as `none`. -/
def streamInsert (enumDef : List String) (os : String) (value : Nat) :
    Option String :=
  (to_string enumDef value).map (fun s => os ++ s)

/-! ### Helper lemmas -/

theorem assignOrdinals_length (l : List String) (k : Nat) :
    (assignOrdinals l k).length = l.length := by
  induction l generalizing k with
  | nil => rfl
  | cons n rest ih => simp [assignOrdinals, ih]

theorem assignOrdinals_getElem? (l : List String) (k i : Nat) :
    (assignOrdinals l k)[i]? = l[i]?.map (fun n => (n, k + i)) := by
  induction l generalizing k i with
  | nil => simp [assignOrdinals]
  | cons n rest ih =>
    cases i with
    | zero => simp [assignOrdinals]
    | succ m =>
      simp only [assignOrdinals, List.getElem?_cons_succ, ih]
      have : k + 1 + m = k + (m + 1) := by omega
      rw [this]

theorem EnumName_names_length (enumDef : List String) :
    (EnumName_names enumDef).length = enumDef.length := by
  simp [EnumName_names]

theorem EnumName_names_getElem? (enumDef : List String) (i : Nat) :
    (EnumName_names enumDef)[i]? = enumDef[i]? := by
  rw [EnumName_names, List.getElem?_map]
  cases enumDef[i]? <;> rfl

theorem TOTAL_ordinal_eq (enumDef : List String) :
    TOTAL_ordinal enumDef = enumDef.length := by
  have hlen : (enumerators enumDef).length = enumDef.length + 1 := by
    simp [enumerators, enumDecls, assignOrdinals_length]
  have hget : (enumerators enumDef)[enumDef.length]? = some ("TOTAL", enumDef.length) := by
    rw [enumerators, assignOrdinals_getElem?]
    have : (enumDecls enumDef)[enumDef.length]? = some "TOTAL" := by
      simp [enumDecls]
    rw [this]
    simp
  have hlast : (enumerators enumDef).getLast? = some ("TOTAL", enumDef.length) := by
    rw [List.getLast?_eq_getElem?, hlen]
    simpa using hget
  rw [TOTAL_ordinal, List.getLastD_eq_getLast?, hlast]
  rfl

theorem from_stringLoop_eq_some_iff (sv : String) (l : List String) (i j : Nat) :
    from_stringLoop sv l i = some j ↔
      ∃ m, j = i + m ∧ l[m]? = some sv ∧ ∀ p, p < m → l[p]? ≠ some sv := by
  induction l generalizing i j with
  | nil => simp [from_stringLoop]
  | cons n rest ih =>
    simp only [from_stringLoop]
    by_cases hn : n = sv
    · rw [if_pos hn]
      constructor
      · intro h
        have hij : i = j := Option.some_inj.mp h
        refine ⟨0, by omega, by simpa using hn, ?_⟩
        intro p hp
        omega
      · rintro ⟨m, rfl, hm, hmin⟩
        cases m with
        | zero => simp
        | succ p =>
          exact absurd (show (n :: rest)[0]? = some sv by simp [hn])
            (hmin 0 (Nat.succ_pos p))
    · rw [if_neg hn, ih]
      constructor
      · rintro ⟨m, rfl, hm, hmin⟩
        refine ⟨m + 1, by omega, by simpa using hm, ?_⟩
        intro p hp
        cases p with
        | zero => simpa using fun h => hn h
        | succ q => simpa using hmin q (by omega)
      · rintro ⟨m, rfl, hm, hmin⟩
        cases m with
        | zero => exact absurd (by simpa using hm) hn
        | succ q =>
          refine ⟨q, by omega, by simpa using hm, ?_⟩
          intro p hp
          simpa using hmin (p + 1) (by omega)

theorem from_stringLoop_eq_none_iff (sv : String) (l : List String) (i : Nat) :
    from_stringLoop sv l i = none ↔ sv ∉ l := by
  induction l generalizing i with
  | nil => simp [from_stringLoop]
  | cons n rest ih =>
    simp only [from_stringLoop, List.mem_cons]
    by_cases hn : n = sv
    · simp [hn]
    · rw [if_neg hn, ih]
      constructor
      · intro h hc
        rcases hc with hc | hc
        · exact hn hc.symm
        · exact h hc
      · intro h hc
        exact h (Or.inr hc)

theorem from_string_eq_some_iff (enumDef : List String) (sv : String) (j : Nat) :
    EnumName_from_string enumDef sv = some j ↔
      (EnumName_names enumDef)[j]? = some sv ∧
        ∀ p, p < j → (EnumName_names enumDef)[p]? ≠ some sv := by
  rw [EnumName_from_string, from_stringLoop_eq_some_iff]
  constructor
  · rintro ⟨m, rfl, hm, hmin⟩
    simpa using ⟨hm, hmin⟩
  · rintro ⟨hm, hmin⟩
    exact ⟨j, by omega, hm, hmin⟩

theorem from_string_eq_none_iff (enumDef : List String) (sv : String) :
    EnumName_from_string enumDef sv = none ↔ sv ∉ EnumName_names enumDef := by
  rw [EnumName_from_string, from_stringLoop_eq_none_iff]

/-! ### Claims -/

/-- C1: `EnumName_from_string` scans the Name Table linearly from index 0
upward; it returns the variant of ordinal `i` exactly when entry `i` equals
the input under exact, case-sensitive, full-string comparison and no smaller
index matches, i.e. `i` is the smallest matching index. -/
theorem from_string_first_match (enumDef : List String) (s : String) (i : Nat) :
    EnumName_from_string enumDef s = some i ↔
      i < (EnumName_names enumDef).length ∧
        (EnumName_names enumDef)[i]? = some s ∧
        ∀ j, j < i → (EnumName_names enumDef)[j]? ≠ some s := by
  rw [from_string_eq_some_iff]
  constructor
  · rintro ⟨hm, hmin⟩
    obtain ⟨hb, -⟩ := List.getElem?_eq_some.mp hm
    exact ⟨hb, hm, hmin⟩
  · rintro ⟨-, hm, hmin⟩
    exact ⟨hm, hmin⟩

/-- C2: for a valid variant of ordinal `v` in `0..N-1`, `to_string` returns
`NameTable[v]`, the exact source spelling of enumerator `v`. -/
theorem to_string_exact_spelling (enumDef : List String) (v : Nat)
    (h : v < enumDef.length) :
    to_string enumDef v = some (enumDef.get ⟨v, h⟩) := by
  rw [to_string, EnumName_names_getElem?, List.getElem?_eq_getElem h]
  simp

/-- Witness for C2 with the spec's Colour list at ordinal 1. -/
theorem to_string_exact_spelling_witness :
    1 < (["red", "green", "blue"] : List String).length ∧
      to_string ["red", "green", "blue"] 1 = some "green" :=
  ⟨by decide, by
    have h := to_string_exact_spelling ["red", "green", "blue"] 1 (by decide)
    simpa using h⟩

/-- C3: for a duplicate-free Enumerator List and every valid ordinal `i`,
`from_string (to_string (variant i)) = variant i`. -/
theorem from_string_to_string_id (enumDef : List String) (i : Nat)
    (hnd : enumDef.Nodup) (hi : i < enumDef.length) :
    (to_string enumDef i).bind (EnumName_from_string enumDef) = some i := by
  have hts : to_string enumDef i = some (enumDef.get ⟨i, hi⟩) := by
    rw [to_string, EnumName_names_getElem?, List.getElem?_eq_getElem hi]
    rfl
  rw [hts, Option.some_bind, from_string_eq_some_iff]
  refine ⟨by rw [EnumName_names_getElem?, List.getElem?_eq_getElem hi]; rfl, ?_⟩
  intro p hp hc
  rw [EnumName_names_getElem?] at hc
  obtain ⟨hpb, hpc⟩ := List.getElem?_eq_some.mp hc
  exact absurd (hnd.getElem_inj_iff.mp hpc) (by omega)

/-- Witness for C3 with the spec's Colour list at ordinal 2. -/
theorem from_string_to_string_id_witness :
    (["red", "green", "blue"] : List String).Nodup ∧
      (to_string ["red", "green", "blue"] 2).bind
        (EnumName_from_string ["red", "green", "blue"]) = some 2 :=
  ⟨by decide,
    from_string_to_string_id ["red", "green", "blue"] 2 (by decide) (by decide)⟩

/-- C4: for every spelling `s` occurring in the Name Table,
`to_string (from_string s) = s`. -/
theorem to_string_from_string_id (enumDef : List String) (s : String)
    (hs : s ∈ EnumName_names enumDef) :
    (EnumName_from_string enumDef s).bind (to_string enumDef) = some s := by
  cases hfs : EnumName_from_string enumDef s with
  | none => exact absurd hs ((from_string_eq_none_iff enumDef s).mp hfs)
  | some j =>
    obtain ⟨hm, -⟩ := (from_string_eq_some_iff enumDef s j).mp hfs
    rw [Option.some_bind, to_string, hm]

/-- Witness for C4 with the spelling "blue" of the spec's Colour list. -/
theorem to_string_from_string_id_witness :
    "blue" ∈ EnumName_names ["red", "green", "blue"] ∧
      (EnumName_from_string ["red", "green", "blue"] "blue").bind
        (to_string ["red", "green", "blue"]) = some "blue" :=
  ⟨by decide, to_string_from_string_id ["red", "green", "blue"] "blue" (by decide)⟩

/-- C5: for every input absent from the Name Table, `EnumName_from_string`
ends in the `assert(false)` branch — an explicit lookup-failure outcome,
rendered `none` — and never returns a variant. -/
theorem from_string_absent_fails (enumDef : List String) (s : String)
    (hs : s ∉ EnumName_names enumDef) :
    EnumName_from_string enumDef s = none :=
  (from_string_eq_none_iff enumDef s).mpr hs

/-- Witness for C5 with the unknown spelling "purple". -/
theorem from_string_absent_fails_witness :
    "purple" ∉ EnumName_names ["red", "green", "blue"] ∧
      EnumName_from_string ["red", "green", "blue"] "purple" = none :=
  ⟨by decide, from_string_absent_fails ["red", "green", "blue"] "purple" (by decide)⟩

/-- C6: for a duplicate-free Enumerator List of N ≥ 1 identifiers: the
terminal marker's ordinal is N, the Name Table has exactly N entries, and
for each `i < N` the enumerator of ordinal `i` is the i-th identifier and
Name Table entry `i` is its spelling. -/
theorem generator_count_and_order (enumDef : List String)
    (_hN : 1 ≤ enumDef.length) (_hnd : enumDef.Nodup) :
    TOTAL_ordinal enumDef = enumDef.length ∧
      (EnumName_names enumDef).length = enumDef.length ∧
      ∀ i, (hi : i < enumDef.length) →
        (enumerators enumDef)[i]? = some (enumDef.get ⟨i, hi⟩, i) ∧
        (EnumName_names enumDef)[i]? = some (enumDef.get ⟨i, hi⟩) := by
  refine ⟨TOTAL_ordinal_eq enumDef, EnumName_names_length enumDef, ?_⟩
  intro i hi
  constructor
  · rw [enumerators, assignOrdinals_getElem?, enumDecls,
      List.getElem?_append_left hi, List.getElem?_eq_getElem hi]
    simp
  · rw [EnumName_names_getElem?, List.getElem?_eq_getElem hi]
    simp

/-- Witness for C6 with the spec's Colour list. -/
theorem generator_count_and_order_witness :
    1 ≤ (["red", "green", "blue"] : List String).length ∧
      (["red", "green", "blue"] : List String).Nodup ∧
      TOTAL_ordinal ["red", "green", "blue"] =
        (["red", "green", "blue"] : List String).length :=
  ⟨by decide, by decide,
    (generator_count_and_order ["red", "green", "blue"] (by decide) (by decide)).1⟩

/-- C7: generating from `[red, red, blue]`: ordinals 0 and 1 are distinct
variants that both render "red" under `to_string`; `from_string "red"`
resolves to ordinal 0; and no input at all resolves to ordinal 1, so the
later duplicate is unreachable via `from_string`. -/
theorem duplicate_list_scenario :
    (0 : Nat) ≠ 1 ∧
      to_string ["red", "red", "blue"] 0 = some "red" ∧
      to_string ["red", "red", "blue"] 1 = some "red" ∧
      EnumName_from_string ["red", "red", "blue"] "red" = some 0 ∧
      ∀ s, EnumName_from_string ["red", "red", "blue"] s ≠ some 1 := by
  refine ⟨by decide, by decide, by decide, by decide, ?_⟩
  intro s hc
  obtain ⟨hm, hmin⟩ := (from_string_eq_some_iff _ _ _).mp hc
  have h1 : (EnumName_names ["red", "red", "blue"])[1]? = some "red" := by decide
  have hs : s = "red" := by
    rw [h1] at hm
    exact (Option.some_inj.mp hm).symm
  exact hmin 0 (by decide) (by rw [hs]; decide)

/-- C8: with a valid variant (ordinal < N) the index used by `to_string` is
within the Name Table's bounds; the terminal marker's ordinal N is out of
bounds, and `to_string` has no value there. -/
theorem to_string_index_bounds (enumDef : List String) (v : Nat)
    (h : v < enumDef.length) :
    v < (EnumName_names enumDef).length ∧
      (to_string enumDef v).isSome = true ∧
      TOTAL_ordinal enumDef = (EnumName_names enumDef).length ∧
      to_string enumDef (TOTAL_ordinal enumDef) = none := by
  have hlen := EnumName_names_length enumDef
  have hb : v < (EnumName_names enumDef).length := by omega
  refine ⟨hb, ?_, ?_, ?_⟩
  · rw [to_string, List.getElem?_eq_getElem hb]
    rfl
  · rw [TOTAL_ordinal_eq, hlen]
  · rw [to_string, TOTAL_ordinal_eq, List.getElem?_eq_none (by omega)]

/-- Witness for C8 with the spec's Colour list at ordinal 0. -/
theorem to_string_index_bounds_witness :
    0 < (["red", "green", "blue"] : List String).length ∧
      to_string ["red", "green", "blue"]
        (TOTAL_ordinal ["red", "green", "blue"]) = none :=
  ⟨by decide,
    (to_string_index_bounds ["red", "green", "blue"] 0 (by decide)).2.2.2⟩

/-- C9: for a valid variant, the stream insertion operator appends exactly
`to_string value` to the sink — no quoting, no newline, nothing else — and
returns the resulting sink for chaining. -/
theorem streamInsert_writes_to_string (enumDef : List String) (os : String)
    (v : Nat) (s : String) (h : to_string enumDef v = some s) :
    streamInsert enumDef os v = some (os ++ s) := by
  rw [streamInsert, h]
  rfl

/-- Witness for C9: the demo stream write of "blue" after a prefix of text. -/
theorem streamInsert_writes_to_string_witness :
    to_string ["red", "green", "blue"] 2 = some "blue" ∧
      streamInsert ["red", "green", "blue"] "Got enum value " 2 =
        some ("Got enum value " ++ "blue") :=
  ⟨by decide,
    streamInsert_writes_to_string ["red", "green", "blue"] "Got enum value " 2
      "blue" (by decide)⟩

/-- C10: whenever `EnumName_from_string` returns normally, the returned
variant has ordinal strictly below N — in particular it is never the
terminal marker. -/
theorem from_string_returns_valid_variant (enumDef : List String) (s : String)
    (i : Nat) (h : EnumName_from_string enumDef s = some i) :
    i < enumDef.length ∧ i ≠ TOTAL_ordinal enumDef := by
  obtain ⟨hm, -⟩ := (from_string_eq_some_iff enumDef s i).mp h
  obtain ⟨hb, -⟩ := List.getElem?_eq_some.mp hm
  rw [EnumName_names_length] at hb
  exact ⟨hb, by rw [TOTAL_ordinal_eq]; omega⟩

/-- Witness for C10 with the spelling "blue". -/
theorem from_string_returns_valid_variant_witness :
    EnumName_from_string ["red", "green", "blue"] "blue" = some 2 ∧
      2 < (["red", "green", "blue"] : List String).length ∧
      2 ≠ TOTAL_ordinal ["red", "green", "blue"] :=
  ⟨by decide,
    from_string_returns_valid_variant ["red", "green", "blue"] "blue" 2 (by decide)⟩

end DefineEnum
